import Mathlib

/-!
Verification of the EuRoC IMU dataset-preparation pipeline
(`src/data/euroc_utils.py`, `src/data/inertial_ABCs.py`).

The Python pipeline is shallowly embedded: numpy arrays become Lean lists,
IMU/GT sample objects become structures over `ℚ` (floating-point values are
modelled by rationals, real-valued norms and quaternion interpolation by `ℝ`),
and the ambient numpy random-number-generator state is passed explicitly.
-/

namespace EurocPipeline

/-- A 3-component vector (one gyro or accelerometer reading), `ℚ`-valued. -/
structure Vec3 where
  x : ℚ
  y : ℚ
  z : ℚ
deriving DecidableEq

/-- An IMU sample as produced by `IMU.read` / consumed by `IMU.unroll`
(`inertial_ABCs.py`): gyro and accelerometer triples plus a timestamp. -/
structure IMU where
  timestamp : ℚ
  gyro : Vec3
  acc : Vec3
deriving DecidableEq

/-- The trim step shared by `interpolate_ground_truth` (`euroc_utils.py` line
127) and `InertialDataset.interpolate_ground_truth` (`inertial_ABCs.py` line
162): keep exactly the IMU samples whose timestamp is strictly greater than
the first and strictly smaller than the last ground-truth timestamp,
`raw_imu_data[(imu_timestamps > gt_timestamps[0]) * (imu_timestamps < gt_timestamps[-1])]`.
`gt_timestamps[0]` and `gt_timestamps[-1]` are embedded with `headD`/`getLastD`
(the Python expression is only defined for a nonempty ground-truth series). -/
def trimToGtSpan (raw : List IMU) (gtTs : List ℚ) : List IMU :=
  raw.filter fun s =>
    decide (gtTs.headD 0 < s.timestamp ∧ s.timestamp < gtTs.getLastD 0)

/-- A concrete IMU sample used to instantiate theorems. -/
def imuSampleA : IMU := ⟨1/2, ⟨1, 2, 3⟩, ⟨4, 5, 6⟩⟩

/-- A concrete IMU sample with timestamp outside `[0, 1]`. -/
def imuSampleB : IMU := ⟨2, ⟨1, 1, 1⟩, ⟨1, 1, 1⟩⟩

/-- One all-zero row of the `np.zeros((imu_len, 6))` window buffer in
`generate_euroc_imu_dataset` (`euroc_utils.py` line 239): the 6 channel
values (gyro xyz then acc xyz) of one zero-padding entry. -/
def zeroRow : List ℚ := List.replicate 6 0

/-- The window the loop of `generate_euroc_imu_dataset` writes for loop index
`i` (`euroc_utils.py` lines 239-245).  A sample of `raw` is one row of the
reshaped `(n, 6)` IMU matrix.  For `i < imu_len` the slice assignment
`imu_img[imu_len - i - 1:imu_len, :] = raw_imu[0:i+1].reshape(i+1, 6)` leaves
the first `imu_len - i - 1` rows zero and right-aligns samples `0..i`;
otherwise `imu_img = raw_imu[i:i + imu_len].reshape(imu_len, 6)`. -/
def imuImg (L : ℕ) (raw : List (List ℚ)) (i : ℕ) : List (List ℚ) :=
  if i < L then List.replicate (L - (i + 1)) zeroRow ++ raw.take (i + 1)
  else (raw.drop i).take L

/-- `imu_img_tensor` of `generate_euroc_imu_dataset`: initialized to
`np.zeros((len(raw_imu), imu_len, 6, 1))`, then the loop
`for i in range(len(raw_imu) - imu_len)` fills slot `i` with `imuImg`; the
final `imu_len` slots keep their zero initialization. -/
def imuImgTensor (L : ℕ) (raw : List (List ℚ)) : List (List (List ℚ)) :=
  (List.range raw.length).map fun i =>
    if i < raw.length - L then imuImg L raw i else List.replicate L zeroRow

/-- `np.linalg.norm` of a 3-vector: the Euclidean norm, real-valued. -/
noncomputable def norm3 (v : Vec3) : ℝ :=
  Real.sqrt ((v.x : ℝ) ^ 2 + (v.y : ℝ) ^ 2 + (v.z : ℝ) ^ 2)

/-- `gt_v_tensor` of `generate_euroc_imu_dataset`: initialized to
`np.zeros(len(raw_imu))` (here `n = len(raw_imu)`), the loop sets
`gt_v_tensor[i] = np.linalg.norm(gt_v[i])` for `i < n - imu_len`; the final
`imu_len` entries keep their zero initialization. -/
noncomputable def gtVTensor (L n : ℕ) (gtV : List Vec3) : List ℝ :=
  (List.range n).map fun i =>
    if i < n - L then norm3 (gtV.getD i ⟨0, 0, 0⟩) else 0

/-- A concrete reshaped IMU row whose first channel carries the tag `k`. -/
def rawRow (k : ℚ) : List ℚ := [k, 0, 0, 0, 0, 0]

/-- A concrete 5-sample reshaped IMU series with pairwise distinct rows. -/
def raw5 : List (List ℚ) := [rawRow 1, rawRow 2, rawRow 3, rawRow 4, rawRow 5]

/-- A concrete 3-sample reshaped IMU series. -/
def raw3 : List (List ℚ) := [rawRow 1, rawRow 2, rawRow 3]

/-- The unit velocity vector along x. -/
def vUnitX : Vec3 := ⟨1, 0, 0⟩

/-- A concrete interpolated ground-truth velocity series of length 3. -/
def gtV3 : List Vec3 := [vUnitX, vUnitX, vUnitX]

/-- Dot product of a coefficient list with a most-recent-first history
(implicitly zero-padded before the start of the signal): the
`Σ c[k]·h[n-k]` terms of scipy's direct-form difference equation. -/
def dotRev (c hist : List ℚ) : ℚ :=
  ((c.zip hist).map fun p => p.1 * p.2).sum

/-- Recursion of `scipy.signal.lfilter` along one channel: `xh` and `yh` are
the reversed prefixes of past inputs and outputs;
`a0·y[n] = Σ b[k]·x[n-k] - Σ_{k≥1} a[k]·y[n-k]`, zero initial conditions. -/
def lfilterGo (b aTail : List ℚ) (a0 : ℚ) :
    List ℚ → List ℚ → List ℚ → List ℚ
  | [], _, _ => []
  | xn :: rest, xh, yh =>
    let yn := (dotRev b (xn :: xh) - dotRev aTail yh) / a0
    yn :: lfilterGo b aTail a0 rest (xn :: xh) (yn :: yh)

/-- `scipy.signal.lfilter(b, a, x)` on a single 1-D channel. -/
def lfilter (b a : List ℚ) (x : List ℚ) : List ℚ :=
  lfilterGo b (a.drop 1) (a.headD 1) x [] []

/-- Rebuild `(time, 3)` rows from the three channel columns. -/
def zip3V : List ℚ → List ℚ → List ℚ → List Vec3
  | x :: xs, y :: ys, z :: zs => ⟨x, y, z⟩ :: zip3V xs ys zs
  | _, _, _ => []

/-- Filtering an `(n, 3)` channel group along the time axis (`axis=0`): each
of the three columns is filtered independently, column order preserved.  This
embeds `signal.lfilter(b_bw, a_bw, ..., axis=0)` (`euroc_utils.py` line 174);
for `basic_preprocessing` it also stands for `filter_with_coeffs`
(`data/utils/data_utils.py`, not under `src/`), modelled from the spec:
"Filtering is applied independently per channel group ... along the time
axis" (causal single-pass variant). -/
def filterCols (b a : List ℚ) (g : List Vec3) : List Vec3 :=
  zip3V (lfilter b a (g.map Vec3.x)) (lfilter b a (g.map Vec3.y))
    (lfilter b a (g.map Vec3.z))

/-- Filtering part of `pre_process_data` (`euroc_utils.py` lines 156-174).
The input is the `(n, 2, 3)` array of `(gyro, acc)` sample pairs; the source
copies it and assigns only `filt_imu_vec[:, 1, :] = signal.lfilter(...)`
— the accelerometer group — so the gyro group is returned unfiltered.  The
Butterworth coefficients `b`, `a` (`signal.butter(10, w0)` output,
floating-point) are parameters. -/
def preProcessData (b a : List ℚ) (imu : List (Vec3 × Vec3)) :
    List (Vec3 × Vec3) :=
  (imu.map Prod.fst).zip (filterCols b a (imu.map Prod.snd))

/-- Rebuild unrolled IMU rows from the gyro, acc and timestamp columns. -/
def zip3Imu : List Vec3 → List Vec3 → List ℚ → List IMU
  | g :: gs, c :: cs, t :: ts => ⟨t, g, c⟩ :: zip3Imu gs cs ts
  | _, _, _ => []

/-- Filtering part of `InertialDataset.basic_preprocessing`
(`inertial_ABCs.py` lines 104-146): the unrolled IMU matrix has columns
(gyro, acc, timestamp); the loop `for i, tit in zip(range(imu_channels), ...)`
filters columns 0 (gyro) and 1 (acc) along the time axis via
`filter_with_coeffs`; the timestamp column is left untouched. -/
def basicPreprocessing (b a : List ℚ) (imu : List IMU) : List IMU :=
  zip3Imu (filterCols b a (imu.map IMU.gyro))
    (filterCols b a (imu.map IMU.acc)) (imu.map IMU.timestamp)

/-- A concrete 2-sample `(gyro, acc)` series with constant unit channels. -/
def imuPairs2 : List (Vec3 × Vec3) :=
  [(⟨1, 1, 1⟩, ⟨1, 1, 1⟩), (⟨1, 1, 1⟩, ⟨1, 1, 1⟩)]

/-- Minimum of a list of rationals (`0` on the empty list; sklearn's `fit`
is only reached with data present). -/
def listMin : List ℚ → ℚ
  | [] => 0
  | x :: xs => xs.foldl min x

/-- Maximum of a list of rationals (`0` on the empty list). -/
def listMax : List ℚ → ℚ
  | [] => 0
  | x :: xs => xs.foldl max x

/-- The parameters captured by `sklearn.preprocessing.MinMaxScaler.fit`:
the per-column data minima and maxima. -/
structure MinMaxFit where
  dataMin : List ℚ
  dataMax : List ℚ
deriving DecidableEq

/-- `MinMaxScaler.fit` on an `(n, m)` matrix given as a list of rows:
`data_min_` / `data_max_` are the per-column minima and maxima (`m` is the
width of the first row). -/
def minMaxScalerFit (rows : List (List ℚ)) : MinMaxFit :=
  ⟨(List.range (rows.headD []).length).map
      fun j => listMin (rows.map fun r => r.getD j 0),
    (List.range (rows.headD []).length).map
      fun j => listMax (rows.map fun r => r.getD j 0)⟩

/-- The three components of a vector as one matrix row. -/
def vec3List (v : Vec3) : List ℚ := [v.x, v.y, v.z]

/-- The (gyro, acc) scaler fits of `pre_process_data` (`euroc_utils.py`
lines 210-213): `scale_g.fit(filt_imu_vec[:, 0, :].reshape(-1, 1))` and
`scale_a.fit(filt_imu_vec[:, 1, :].reshape(-1, 1))` — each `(n, 3)` group of
the filtered data is reshaped row-major into a single column before
fitting. -/
def preProcessScalers (b a : List ℚ) (imu : List (Vec3 × Vec3)) :
    MinMaxFit × MinMaxFit :=
  (minMaxScalerFit
      (((((preProcessData b a imu).map Prod.fst).map vec3List).flatten).map
        fun v => [v]),
    minMaxScalerFit
      (((((preProcessData b a imu).map Prod.snd).map vec3List).flatten).map
        fun v => [v]))

/-- The (gyro, acc) scaler fits of `basic_preprocessing`
(`inertial_ABCs.py` lines 133-136): `scale_g.fit(np.stack(imu_unroll[:, 0]))`
and `scale_a.fit(np.stack(imu_unroll[:, 1]))` — each group of the filtered
data is fit as an `(n, 3)` matrix, so sklearn computes per-column
statistics. -/
def basicPreprocessingScalers (b a : List ℚ) (imu : List IMU) :
    MinMaxFit × MinMaxFit :=
  (minMaxScalerFit (((basicPreprocessing b a imu).map IMU.gyro).map vec3List),
    minMaxScalerFit (((basicPreprocessing b a imu).map IMU.acc).map vec3List))

/-- One IMU sample with pairwise different gyro axis values. -/
def imuAx : IMU := ⟨0, ⟨0, 1, 2⟩, ⟨0, 0, 0⟩⟩

/-- `int(np.ceil(total_ds_len * 0.1))` (`euroc_utils.py` line 268, and
`val_ds_len = np.ceil(full_ds_len * 0.1)` at line 310): a tenth of the
dataset, rounded up. -/
def testDsLen (n : ℕ) : ℕ := Nat.ceil ((n : ℚ) * (1 / 10))

/-- Recursion of `np.delete(l, idx, axis=0)`: walk the rows with their
position `k`, dropping the rows whose position lies in `idx` and keeping the
rest in order. -/
def npDeleteFrom {α : Type} (idx : List ℕ) : ℕ → List α → List α
  | _, [] => []
  | k, x :: xs =>
    if k ∈ idx then npDeleteFrom idx (k + 1) xs
    else x :: npDeleteFrom idx (k + 1) xs

/-- `np.delete(l, idx, axis=0)`. -/
def npDelete {α : Type} (l : List α) (idx : List ℕ) : List α :=
  npDeleteFrom idx 0 l

/-- The row positions `np.delete` keeps: the complement of `idx` inside
`range n`. -/
def keptIndexes (n : ℕ) (idx : List ℕ) : List ℕ :=
  (List.range n).filter fun i => decide (¬ i ∈ idx)

/-- The test/train partition of `generate_euroc_imu_dataset`
(`euroc_utils.py` lines 267-277): `test_indexes` is the draw of
`np.random.choice(total_ds_len, test_ds_len, replace=False)` from the
(unseeded) global numpy RNG, passed here explicitly; the test rows are the
fancy-indexed `tensor[test_indexes]` and the train rows are
`np.delete(tensor, test_indexes, 0)`. -/
def eurocTestTrainSplit (testIdx : List ℕ) (xs : List (List (List ℚ))) :
    List (List (List ℚ)) × List (List (List ℚ)) :=
  (testIdx.map fun i => xs.getD i [], npDelete xs testIdx)

/-- The fixed constant `seed = 8901` of `generate_cnn_training_dataset`
(`euroc_utils.py` line 293).  It is passed only to
`tf.data.Dataset.shuffle`, after the train/validation partition is made; the
function has no seed parameter. -/
def cnnShuffleSeed : ℕ := 8901

/-- `np.random.choice(range(n), k, replace=False)` reading the ambient
global numpy RNG (`euroc_utils.py` line 313 — nothing seeds it): the state
is modelled as the stream of candidate indices the generator emits, and the
draw keeps its first `k` distinct in-range values.  No parameter of the
pipeline determines this stream. -/
def npRandomChoice (ambient : List ℕ) (n k : ℕ) : List ℕ :=
  ((ambient.filter fun i => decide (i < n)).dedup).take k

/-- Train/validation split of `generate_cnn_training_dataset`
(`euroc_utils.py` lines 309-318): draw `val_ds_len = ceil(n * 0.1)` indices
from the ambient RNG; validation rows are fancy-indexed, training rows are
`np.delete(..., val_ds_indexes, axis=0)`.  Returns
((train windows, train targets), (validation windows, validation targets)). -/
def generateCnnTrainingSplit (ambient : List ℕ) (xs : List (List ℚ))
    (ys : List ℚ) : (List (List ℚ) × List ℚ) × (List (List ℚ) × List ℚ) :=
  let valIdx := npRandomChoice ambient ys.length (testDsLen ys.length)
  ((npDelete xs valIdx, npDelete ys valIdx),
    (valIdx.map fun i => xs.getD i [], valIdx.map fun i => ys.getD i 0))

/-- The spec's error kind for invalid filter parameters. -/
inductive ConfigError
  | invalidOrder
  | invalidCutoff
deriving DecidableEq

/-- Butterworth filter coefficients.  Their numeric values are the
floating-point output of the external design routine and are not
modelled. -/
structure FilterCoefficients where
  b : List ℚ
  a : List ℚ

/-- Modelled from the spec: the filter-design step
`signal.butter(order, w0, output='ba')` (scipy, external to this
repository's sources): "fails with `ConfigError` if normalized cutoff is
outside `(0, 1)` or order ≤ 0". -/
def butterDesign (order : ℤ) (w0 : ℚ) :
    Except ConfigError FilterCoefficients :=
  if order ≤ 0 then Except.error ConfigError.invalidOrder
  else if w0 ≤ 0 ∨ 1 ≤ w0 then Except.error ConfigError.invalidCutoff
  else Except.ok ⟨[], []⟩

/-- The design call shared by `basic_preprocessing` (`inertial_ABCs.py`
lines 114-118) and `pre_process_data` (`euroc_utils.py` lines 159-164): the
order is fixed at 10 and the normalized cutoff is `w0 = f0 / (fs / 2)`. -/
def designInPreprocessing (fs f0 : ℚ) :
    Except ConfigError FilterCoefficients :=
  butterDesign 10 (f0 / (fs / 2))

/-- A quaternion as stored in the `att` field: components (w, x, y, z),
real-valued. -/
structure Quat where
  w : ℝ
  x : ℝ
  y : ℝ
  z : ℝ

/-- Componentwise quaternion sum. -/
noncomputable def qadd (p q : Quat) : Quat :=
  ⟨p.w + q.w, p.x + q.x, p.y + q.y, p.z + q.z⟩

/-- Scalar multiple of a quaternion. -/
noncomputable def qsmul (c : ℝ) (q : Quat) : Quat :=
  ⟨c * q.w, c * q.x, c * q.y, c * q.z⟩

/-- Componentwise quaternion negation (the sign flip of the shorter-arc
selection). -/
noncomputable def qneg (q : Quat) : Quat := ⟨-q.w, -q.x, -q.y, -q.z⟩

/-- Quaternion dot product. -/
noncomputable def quatDot (p q : Quat) : ℝ :=
  p.w * q.w + p.x * q.x + p.y * q.y + p.z * q.z

/-- Squared quaternion norm; a quaternion has unit norm iff this is 1. -/
noncomputable def qnormSq (q : Quat) : ℝ :=
  q.w ^ 2 + q.x ^ 2 + q.y ^ 2 + q.z ^ 2

/-- The zero quaternion. -/
noncomputable def qzero : Quat := ⟨0, 0, 0, 0⟩

/-- Shorter-arc selection: flip the sign of the second quaternion when its
dot product with the first is negative. -/
noncomputable def slerpShorterArc (q0 q1 : Quat) : Quat :=
  if quatDot q0 q1 < 0 then qneg q1 else q1

/-- Modelled from the spec: the spherical (great-circle) combination of the
orientation resampling done by `interpolate_ts(..., is_quaternion=True)`
(`data/utils/data_utils.py`, not under `src/`): with `θ` the angle between
the first quaternion and the shorter-arc representative of the second, the
bracketing quaternions are blended with weights `sin((1-t)·θ)/sin θ` and
`sin(t·θ)/sin θ`, where `t ∈ [0, 1]` is the normalized position of the
retained IMU timestamp between the two bracketing ground-truth
timestamps. -/
noncomputable def slerpCombo (q0 q1 : Quat) (t : ℝ) : Quat :=
  let q1' := slerpShorterArc q0 q1
  let θ := Real.arccos (quatDot q0 q1')
  qadd (qsmul (Real.sin ((1 - t) * θ) / Real.sin θ) q0)
    (qsmul (Real.sin (t * θ) / Real.sin θ) q1')

/-- Renormalization of the interpolation result. -/
noncomputable def qnormalize (q : Quat) : Quat :=
  qsmul (Real.sqrt (qnormSq q))⁻¹ q

/-- The interpolated orientation output by alignment: spherical shorter-arc
interpolation followed by renormalization. -/
noncomputable def interpolateQuat (q0 q1 : Quat) (t : ℝ) : Quat :=
  qnormalize (slerpCombo q0 q1 t)

/-- The identity orientation, a concrete unit quaternion. -/
noncomputable def qex0 : Quat := ⟨1, 0, 0, 0⟩

/-- A concrete unit quaternion orthogonal to `qex0`. -/
noncomputable def qex1 : Quat := ⟨0, 1, 0, 0⟩

end EurocPipeline

namespace EurocPipeline

/-- C3: after the alignment trim, every retained IMU sample's timestamp lies
strictly between the first and the last ground-truth timestamp, and no IMU
sample with timestamp ≤ the first or ≥ the last ground-truth timestamp
survives the trim. -/
theorem align_trim_strictly_inside_gt_span
    (raw : List IMU) (gtTs : List ℚ) (h : gtTs ≠ []) :
    (∀ s ∈ trimToGtSpan raw gtTs,
        gtTs.head h < s.timestamp ∧ s.timestamp < gtTs.getLast h) ∧
    (∀ s ∈ raw,
        s.timestamp ≤ gtTs.head h ∨ gtTs.getLast h ≤ s.timestamp →
        s ∉ trimToGtSpan raw gtTs) := by
  have hHead : gtTs.headD 0 = gtTs.head h := by
    cases gtTs with
    | nil => exact absurd rfl h
    | cons a t => rfl
  have hLast : gtTs.getLastD 0 = gtTs.getLast h := by
    rw [List.getLastD_eq_getLast?, List.getLast?_eq_getLast _ h]
    rfl
  constructor
  · intro s hs
    have := List.of_mem_filter hs
    rw [decide_eq_true_eq, hHead, hLast] at this
    exact this
  · intro s _ hout hmem
    have := List.of_mem_filter hmem
    rw [decide_eq_true_eq, hHead, hLast] at this
    rcases hout with h1 | h1
    · exact absurd this.1 (not_lt.mpr h1)
    · exact absurd this.2 (not_lt.mpr h1)

/-- Witness for C3 at the concrete series `[imuSampleA, imuSampleB]` with
ground-truth timestamps `[0, 1]`. -/
theorem align_trim_strictly_inside_gt_span_witness :
    ([(0 : ℚ), 1] ≠ []) ∧
    ((∀ s ∈ trimToGtSpan [imuSampleA, imuSampleB] [(0 : ℚ), 1],
        ([(0 : ℚ), 1]).head (by decide) < s.timestamp ∧
          s.timestamp < ([(0 : ℚ), 1]).getLast (by decide)) ∧
      (∀ s ∈ [imuSampleA, imuSampleB],
        s.timestamp ≤ ([(0 : ℚ), 1]).head (by decide) ∨
            ([(0 : ℚ), 1]).getLast (by decide) ≤ s.timestamp →
          s ∉ trimToGtSpan [imuSampleA, imuSampleB] [(0 : ℚ), 1])) :=
  ⟨by decide,
    align_trim_strictly_inside_gt_span [imuSampleA, imuSampleB] [(0 : ℚ), 1]
      (by decide)⟩

/-- Indexing a map over `List.range`. -/
theorem getD_map_range {α : Type} (f : ℕ → α) (n i : ℕ) (d : α) :
    ((List.range n).map f).getD i d = if i < n then f i else d := by
  rcases Nat.lt_or_ge i n with h | h
  · rw [List.getD_eq_getElem?_getD, List.getElem?_map, List.getElem?_range h]
    simp [h]
  · rw [List.getD_eq_getElem?_getD, List.getElem?_map,
      List.getElem?_eq_none (by simpa using h)]
    simp [Nat.not_lt.mpr h]

/-- C1: the window builder is not causal.  With window length `L = 2` and the
5-sample series `raw5`, the window the loop constructs at index `i = 2` is
`[raw5[2], raw5[3]]`: it contains the sample of index `3 > 2`, which is
neither a zero-padding row nor equal to any sample of index ≤ 2. -/
theorem euroc_window_reads_future_sample :
    (imuImgTensor 2 raw5).getD 2 [] = [raw5.getD 2 [], raw5.getD 3 []] ∧
    raw5.getD 3 [] ≠ zeroRow ∧
    (∀ j, j ≤ 2 → raw5.getD j [] ≠ raw5.getD 3 []) := by decide

/-- C2 fails as stated: with window length 1 and a 3-sample series, the last
index `i = 2` (one of the final `L` indices) gets target `0`, not the norm of
the velocity at index 2 (which is `1`), and its window stays the zero buffer
even though sample 2 is nonzero. -/
theorem euroc_last_window_target_zero :
    (gtVTensor 1 3 gtV3).getD 2 0 = 0 ∧
    norm3 (gtV3.getD 2 ⟨0, 0, 0⟩) = 1 ∧
    (imuImgTensor 1 raw3).getD 2 [] = [zeroRow] ∧
    raw3.getD 2 [] ≠ zeroRow ∧
    (0 : ℝ) ≠ 1 := by
  refine ⟨?_, ?_, by decide, by decide, by norm_num⟩
  · rw [gtVTensor, getD_map_range]
    norm_num
  · have h2 : gtV3.getD 2 ⟨0, 0, 0⟩ = vUnitX := by decide
    rw [h2, norm3]
    have : ((vUnitX.x : ℝ)) ^ 2 + ((vUnitX.y : ℝ)) ^ 2 + ((vUnitX.z : ℝ)) ^ 2
        = 1 := by
      norm_num [vUnitX]
    rw [this, Real.sqrt_one]

/-- C2 (amended): the builder outputs exactly `n` window slots and `n` target
slots in input order; for `i < n - L` slot `i` holds the constructed window
and the target is the Euclidean norm of the velocity at index `i`; the final
`L` slots keep their zero initialization (all-zero window, target `0`). -/
theorem euroc_window_tensor_characterization
    (L i : ℕ) (raw : List (List ℚ)) (gtV : List Vec3) (h : i < raw.length) :
    (imuImgTensor L raw).length = raw.length ∧
    (gtVTensor L raw.length gtV).length = raw.length ∧
    (imuImgTensor L raw).getD i [] =
      (if i < raw.length - L then imuImg L raw i else List.replicate L zeroRow) ∧
    (gtVTensor L raw.length gtV).getD i 0 =
      (if i < raw.length - L then norm3 (gtV.getD i ⟨0, 0, 0⟩) else 0) := by
  refine ⟨by simp [imuImgTensor], by simp [gtVTensor], ?_, ?_⟩
  · rw [imuImgTensor, getD_map_range]
    simp [h]
  · rw [gtVTensor, getD_map_range]
    simp [h]

/-- Witness for C2 (amended) at `L = 1`, `i = 0`, series `raw3`, velocities
`gtV3`. -/
theorem euroc_window_tensor_characterization_witness :
    (0 < raw3.length) ∧
    ((imuImgTensor 1 raw3).length = raw3.length ∧
     (gtVTensor 1 raw3.length gtV3).length = raw3.length ∧
     (imuImgTensor 1 raw3).getD 0 [] =
       (if 0 < raw3.length - 1 then imuImg 1 raw3 0
        else List.replicate 1 zeroRow) ∧
     (gtVTensor 1 raw3.length gtV3).getD 0 0 =
       (if 0 < raw3.length - 1 then norm3 (gtV3.getD 0 ⟨0, 0, 0⟩) else 0)) :=
  ⟨by decide, euroc_window_tensor_characterization 1 0 raw3 gtV3 (by decide)⟩

/-- `lfilterGo` produces one output per input sample. -/
theorem lfilterGo_length (b aTail : List ℚ) (a0 : ℚ) (x : List ℚ) :
    ∀ xh yh : List ℚ, (lfilterGo b aTail a0 x xh yh).length = x.length := by
  induction x with
  | nil => intro xh yh; rfl
  | cons xn rest ih => intro xh yh; simp [lfilterGo, ih]

/-- `lfilter` preserves the length of the channel. -/
theorem lfilter_length (b a x : List ℚ) : (lfilter b a x).length = x.length :=
  lfilterGo_length b (a.drop 1) (a.headD 1) x [] []

/-- Projections of `zip3V` recover the three columns when lengths agree. -/
theorem zip3V_proj (xs : List ℚ) :
    ∀ ys zs : List ℚ, xs.length = ys.length → ys.length = zs.length →
      (zip3V xs ys zs).map Vec3.x = xs ∧ (zip3V xs ys zs).map Vec3.y = ys ∧
        (zip3V xs ys zs).map Vec3.z = zs := by
  induction xs with
  | nil =>
    intro ys zs h1 h2
    cases ys with
    | nil =>
      cases zs with
      | nil => exact ⟨rfl, rfl, rfl⟩
      | cons z zt => exact absurd h2 (by simp)
    | cons y yt => exact absurd h1 (by simp)
  | cons x xt ih =>
    intro ys zs h1 h2
    cases ys with
    | nil => exact absurd h1 (by simp)
    | cons y yt =>
      cases zs with
      | nil => exact absurd h2 (by simp)
      | cons z zt =>
        obtain ⟨p1, p2, p3⟩ := ih yt zt (by simpa using h1) (by simpa using h2)
        exact ⟨by simp [zip3V, p1], by simp [zip3V, p2], by simp [zip3V, p3]⟩

/-- Projections of `zip3Imu` recover the three columns when lengths agree. -/
theorem zip3Imu_proj (gs : List Vec3) :
    ∀ (cs : List Vec3) (ts : List ℚ), gs.length = cs.length →
      cs.length = ts.length →
      (zip3Imu gs cs ts).map IMU.gyro = gs ∧
        (zip3Imu gs cs ts).map IMU.acc = cs ∧
        (zip3Imu gs cs ts).map IMU.timestamp = ts := by
  induction gs with
  | nil =>
    intro cs ts h1 h2
    cases cs with
    | nil =>
      cases ts with
      | nil => exact ⟨rfl, rfl, rfl⟩
      | cons t tt => exact absurd h2 (by simp)
    | cons c ct => exact absurd h1 (by simp)
  | cons g gt ih =>
    intro cs ts h1 h2
    cases cs with
    | nil => exact absurd h1 (by simp)
    | cons c ct =>
      cases ts with
      | nil => exact absurd h2 (by simp)
      | cons t tt =>
        obtain ⟨p1, p2, p3⟩ := ih ct tt (by simpa using h1) (by simpa using h2)
        exact ⟨by simp [zip3Imu, p1], by simp [zip3Imu, p2],
          by simp [zip3Imu, p3]⟩

/-- The three columns of a filtered group are the filtered columns of the
input group, in the same order. -/
theorem filterCols_proj (b a : List ℚ) (g : List Vec3) :
    (filterCols b a g).map Vec3.x = lfilter b a (g.map Vec3.x) ∧
      (filterCols b a g).map Vec3.y = lfilter b a (g.map Vec3.y) ∧
      (filterCols b a g).map Vec3.z = lfilter b a (g.map Vec3.z) :=
  zip3V_proj _ _ _ (by simp [lfilter_length]) (by simp [lfilter_length])

/-- A filtered channel group has one row per input row. -/
theorem filterCols_length (b a : List ℚ) (g : List Vec3) :
    (filterCols b a g).length = g.length := by
  have h := (filterCols_proj b a g).1
  have := congrArg List.length h
  simpa [lfilter_length] using this

/-- C6 fails as stated for `pre_process_data`: on a concrete 2-sample series
with the moving-average low-pass `b = [1/2, 1/2]`, `a = [1]`, the gyro group
of the output equals the raw gyro group and differs from the filtered gyro
group — only the accelerometer group is filtered. -/
theorem pre_process_gyro_unfiltered :
    (preProcessData [1/2, 1/2] [1] imuPairs2).map Prod.fst =
      imuPairs2.map Prod.fst ∧
    (preProcessData [1/2, 1/2] [1] imuPairs2).map Prod.fst ≠
      filterCols [1/2, 1/2] [1] (imuPairs2.map Prod.fst) := by
  constructor
  · exact List.map_fst_zip _ _ (by simp [filterCols_length])
  · norm_num [imuPairs2, preProcessData, filterCols, zip3V, lfilter,
      lfilterGo, dotRev]

/-- C6 (amended): `basic_preprocessing` filters both channel groups (gyro and
accelerometer) independently along the time axis, while `pre_process_data`
filters only the accelerometer group and returns the gyro group unchanged;
in both, each column of a filtered group is the filter applied to the same
column of the input group, so channel ordering within a group is
preserved. -/
theorem filtering_per_group_characterization (b a : List ℚ)
    (imu : List (Vec3 × Vec3)) (imuB : List IMU) :
    (preProcessData b a imu).map Prod.fst = imu.map Prod.fst ∧
    (preProcessData b a imu).map Prod.snd =
      filterCols b a (imu.map Prod.snd) ∧
    (basicPreprocessing b a imuB).map IMU.gyro =
      filterCols b a (imuB.map IMU.gyro) ∧
    (basicPreprocessing b a imuB).map IMU.acc =
      filterCols b a (imuB.map IMU.acc) ∧
    (∀ g : List Vec3,
      (filterCols b a g).map Vec3.x = lfilter b a (g.map Vec3.x) ∧
        (filterCols b a g).map Vec3.y = lfilter b a (g.map Vec3.y) ∧
        (filterCols b a g).map Vec3.z = lfilter b a (g.map Vec3.z)) := by
  obtain ⟨q1, q2, q3⟩ := zip3Imu_proj (filterCols b a (imuB.map IMU.gyro))
    (filterCols b a (imuB.map IMU.acc)) (imuB.map IMU.timestamp)
    (by simp [filterCols_length]) (by simp [filterCols_length])
  refine ⟨?_, ?_, q1, q2, fun g => filterCols_proj b a g⟩
  · exact List.map_fst_zip _ _ (by simp [filterCols_length])
  · exact List.map_snd_zip _ _ (by simp [filterCols_length])

/-- `pre_process_data` outputs one row per input row. -/
theorem preProcessData_length (b a : List ℚ) (imu : List (Vec3 × Vec3)) :
    (preProcessData b a imu).length = imu.length := by
  simp [preProcessData, filterCols_length]

/-- `basic_preprocessing` outputs one row per input row. -/
theorem basicPreprocessing_length (b a : List ℚ) (imu : List IMU) :
    (basicPreprocessing b a imu).length = imu.length := by
  have h := (zip3Imu_proj (filterCols b a (imu.map IMU.gyro))
    (filterCols b a (imu.map IMU.acc)) (imu.map IMU.timestamp)
    (by simp [filterCols_length]) (by simp [filterCols_length])).2.2
  have := congrArg List.length h
  simpa using this

/-- Flattening the rows of a nonempty group is nonempty. -/
theorem flatten_vec3List_ne_nil (gs : List Vec3) (h : gs ≠ []) :
    ((gs.map vec3List).flatten) ≠ [] := by
  obtain ⟨g, gt, rfl⟩ := List.exists_cons_of_ne_nil h
  simp [vec3List]

/-- Fitting a matrix reshaped to a single column captures one pooled
(min, max) pair over all its values. -/
theorem minMaxScalerFit_single_column (vals : List ℚ) (h : vals ≠ []) :
    minMaxScalerFit (vals.map fun v => [v]) =
      ⟨[listMin vals], [listMax vals]⟩ := by
  obtain ⟨v, vs, rfl⟩ := List.exists_cons_of_ne_nil h
  simp [minMaxScalerFit, List.map_map, Function.comp_def, List.range_succ]

/-- Fitting an `(n, 3)` group row-wise captures one (min, max) pair per
axis. -/
theorem minMaxScalerFit_three_columns (gs : List Vec3) (h : gs ≠ []) :
    minMaxScalerFit (gs.map vec3List) =
      ⟨[listMin (gs.map Vec3.x), listMin (gs.map Vec3.y),
          listMin (gs.map Vec3.z)],
        [listMax (gs.map Vec3.x), listMax (gs.map Vec3.y),
          listMax (gs.map Vec3.z)]⟩ := by
  obtain ⟨g, gt, rfl⟩ := List.exists_cons_of_ne_nil h
  simp [minMaxScalerFit, vec3List, List.range_succ, List.map_map,
    Function.comp_def]

/-- C8 fails as stated for `basic_preprocessing`: with the identity filter
`b = [1]`, `a = [1]` and one sample whose gyro axes are `0, 1, 2`, the fitted
gyro scaler holds the per-axis minima `[0, 1, 2]` — three different values —
not a single pooled scalar per group. -/
theorem basic_preprocessing_scaler_per_axis :
    (basicPreprocessingScalers [1] [1] [imuAx]).1.dataMin = [0, 1, 2] ∧
    ¬ ∃ c : ℚ, (basicPreprocessingScalers [1] [1] [imuAx]).1.dataMin = [c] := by
  have h : (basicPreprocessingScalers [1] [1] [imuAx]).1.dataMin
      = [0, 1, 2] := by
    norm_num [basicPreprocessingScalers, basicPreprocessing, minMaxScalerFit,
      zip3Imu, filterCols, zip3V, lfilter, lfilterGo, dotRev, imuAx,
      vec3List, listMin, List.range_succ]
  refine ⟨h, ?_⟩
  rintro ⟨c, hc⟩
  rw [h] at hc
  simp at hc

/-- C8 (amended): the two scalers of `pre_process_data` are each fit by
pooling all axes and all timesteps of their filtered group (a single scalar
min and max per group), while the two scalers of `basic_preprocessing` are
fit per axis: each holds three minima and three maxima, one per channel of
its group. -/
theorem scaler_fit_pooling_characterization (b a : List ℚ)
    (imu : List (Vec3 × Vec3)) (imuB : List IMU)
    (h : imu ≠ []) (hB : imuB ≠ []) :
    (preProcessScalers b a imu).1 =
      ⟨[listMin ((((preProcessData b a imu).map Prod.fst).map vec3List).flatten)],
        [listMax
          ((((preProcessData b a imu).map Prod.fst).map vec3List).flatten)]⟩ ∧
    (preProcessScalers b a imu).2 =
      ⟨[listMin ((((preProcessData b a imu).map Prod.snd).map vec3List).flatten)],
        [listMax
          ((((preProcessData b a imu).map Prod.snd).map vec3List).flatten)]⟩ ∧
    (basicPreprocessingScalers b a imuB).1 =
      ⟨[listMin (((basicPreprocessing b a imuB).map IMU.gyro).map Vec3.x),
          listMin (((basicPreprocessing b a imuB).map IMU.gyro).map Vec3.y),
          listMin (((basicPreprocessing b a imuB).map IMU.gyro).map Vec3.z)],
        [listMax (((basicPreprocessing b a imuB).map IMU.gyro).map Vec3.x),
          listMax (((basicPreprocessing b a imuB).map IMU.gyro).map Vec3.y),
          listMax (((basicPreprocessing b a imuB).map IMU.gyro).map Vec3.z)]⟩ ∧
    (basicPreprocessingScalers b a imuB).2 =
      ⟨[listMin (((basicPreprocessing b a imuB).map IMU.acc).map Vec3.x),
          listMin (((basicPreprocessing b a imuB).map IMU.acc).map Vec3.y),
          listMin (((basicPreprocessing b a imuB).map IMU.acc).map Vec3.z)],
        [listMax (((basicPreprocessing b a imuB).map IMU.acc).map Vec3.x),
          listMax (((basicPreprocessing b a imuB).map IMU.acc).map Vec3.y),
          listMax (((basicPreprocessing b a imuB).map IMU.acc).map Vec3.z)]⟩ := by
  have hfilt : preProcessData b a imu ≠ [] := by
    intro hx
    have := congrArg List.length hx
    rw [preProcessData_length] at this
    exact h (List.eq_nil_of_length_eq_zero (by simpa using this))
  have hfiltB : basicPreprocessing b a imuB ≠ [] := by
    intro hx
    have := congrArg List.length hx
    rw [basicPreprocessing_length] at this
    exact hB (List.eq_nil_of_length_eq_zero (by simpa using this))
  have hmapB : ∀ f : IMU → Vec3, (basicPreprocessing b a imuB).map f ≠ [] := by
    intro f hx
    exact hfiltB (List.map_eq_nil_iff.mp hx)
  have hmapE : ∀ f : Vec3 × Vec3 → Vec3, (preProcessData b a imu).map f ≠ [] := by
    intro f hx
    exact hfilt (List.map_eq_nil_iff.mp hx)
  refine ⟨?_, ?_, ?_, ?_⟩
  · exact minMaxScalerFit_single_column _
      (flatten_vec3List_ne_nil _ (hmapE Prod.fst))
  · exact minMaxScalerFit_single_column _
      (flatten_vec3List_ne_nil _ (hmapE Prod.snd))
  · exact minMaxScalerFit_three_columns _ (hmapB IMU.gyro)
  · exact minMaxScalerFit_three_columns _ (hmapB IMU.acc)

/-- Witness for C8 (amended) at the identity filter and one-sample series. -/
theorem scaler_fit_pooling_characterization_witness :
    (imuPairs2 ≠ []) ∧ ([imuAx] ≠ []) ∧
    ((preProcessScalers [1] [1] imuPairs2).1 =
      ⟨[listMin
          ((((preProcessData [1] [1] imuPairs2).map Prod.fst).map
            vec3List).flatten)],
        [listMax
          ((((preProcessData [1] [1] imuPairs2).map Prod.fst).map
            vec3List).flatten)]⟩ ∧
    (preProcessScalers [1] [1] imuPairs2).2 =
      ⟨[listMin
          ((((preProcessData [1] [1] imuPairs2).map Prod.snd).map
            vec3List).flatten)],
        [listMax
          ((((preProcessData [1] [1] imuPairs2).map Prod.snd).map
            vec3List).flatten)]⟩ ∧
    (basicPreprocessingScalers [1] [1] [imuAx]).1 =
      ⟨[listMin (((basicPreprocessing [1] [1] [imuAx]).map IMU.gyro).map
            Vec3.x),
          listMin (((basicPreprocessing [1] [1] [imuAx]).map IMU.gyro).map
            Vec3.y),
          listMin (((basicPreprocessing [1] [1] [imuAx]).map IMU.gyro).map
            Vec3.z)],
        [listMax (((basicPreprocessing [1] [1] [imuAx]).map IMU.gyro).map
            Vec3.x),
          listMax (((basicPreprocessing [1] [1] [imuAx]).map IMU.gyro).map
            Vec3.y),
          listMax (((basicPreprocessing [1] [1] [imuAx]).map IMU.gyro).map
            Vec3.z)]⟩ ∧
    (basicPreprocessingScalers [1] [1] [imuAx]).2 =
      ⟨[listMin (((basicPreprocessing [1] [1] [imuAx]).map IMU.acc).map
            Vec3.x),
          listMin (((basicPreprocessing [1] [1] [imuAx]).map IMU.acc).map
            Vec3.y),
          listMin (((basicPreprocessing [1] [1] [imuAx]).map IMU.acc).map
            Vec3.z)],
        [listMax (((basicPreprocessing [1] [1] [imuAx]).map IMU.acc).map
            Vec3.x),
          listMax (((basicPreprocessing [1] [1] [imuAx]).map IMU.acc).map
            Vec3.y),
          listMax (((basicPreprocessing [1] [1] [imuAx]).map IMU.acc).map
            Vec3.z)]⟩) :=
  ⟨by simp [imuPairs2], by simp,
    scaler_fit_pooling_characterization [1] [1] imuPairs2 [imuAx]
      (by simp [imuPairs2]) (by simp)⟩

/-- C10: `basic_preprocessing` filters only the gyro and accelerometer
columns; the timestamp column of the returned matrix equals, element for
element and in order, the timestamps of the input IMU samples. -/
theorem basic_preprocessing_preserves_timestamps (b a : List ℚ)
    (imu : List IMU) :
    (basicPreprocessing b a imu).map IMU.timestamp = imu.map IMU.timestamp :=
  (zip3Imu_proj (filterCols b a (imu.map IMU.gyro))
    (filterCols b a (imu.map IMU.acc)) (imu.map IMU.timestamp)
    (by simp [filterCols_length]) (by simp [filterCols_length])).2.2

/-- `np.delete` keeps exactly the rows at the positions of the complement of
`idx`, in order. -/
theorem npDeleteFrom_eq {α : Type} [Inhabited α] (idx : List ℕ)
    (xs : List α) :
    ∀ k : ℕ,
      npDeleteFrom idx k xs =
        ((List.range' k xs.length).filter fun i => decide (¬ i ∈ idx)).map
          fun i => xs.getD (i - k) default := by
  induction xs with
  | nil => intro k; simp [npDeleteFrom]
  | cons x xt ih =>
    intro k
    have htail :
        (((List.range' (k + 1) xt.length).filter fun i =>
            decide (¬ i ∈ idx)).map fun i => (x :: xt).getD (i - k) default) =
          ((List.range' (k + 1) xt.length).filter fun i =>
            decide (¬ i ∈ idx)).map fun i => xt.getD (i - (k + 1)) default := by
      apply List.map_congr_left
      intro i hi
      have hmem : i ∈ List.range' (k + 1) xt.length :=
        List.mem_of_mem_filter hi
      obtain ⟨j, hj, rfl⟩ := List.mem_range'.mp hmem
      have h1 : k + 1 + 1 * j - k = (k + 1 + 1 * j - (k + 1)) + 1 := by omega
      rw [h1, List.getD_cons_succ]
    rw [List.length_cons, List.range'_succ]
    by_cases hk : k ∈ idx
    · rw [npDeleteFrom, if_pos hk, List.filter_cons_of_neg (by simp [hk]),
        htail, ih (k + 1)]
    · rw [npDeleteFrom, if_neg hk, List.filter_cons_of_pos (by simp [hk]),
        List.map_cons, htail, ih (k + 1)]
      simp

/-- `np.delete` in terms of the kept index list. -/
theorem npDelete_eq {α : Type} [Inhabited α] (xs : List α) (idx : List ℕ) :
    npDelete xs idx = (keptIndexes xs.length idx).map
      fun i => xs.getD i default := by
  rw [npDelete, npDeleteFrom_eq idx xs 0, keptIndexes, List.range_eq_range']
  simp

/-- A filtered list and its complement-filtered list partition the length. -/
theorem length_filter_split {α : Type} (p : α → Bool) (l : List α) :
    (l.filter p).length + (l.filter fun a => !(p a)).length = l.length := by
  induction l with
  | nil => rfl
  | cons x xt ih =>
    by_cases h : p x <;> simp [List.filter_cons, h, ← ih] <;> omega

/-- Inside `range n`, the positions belonging to a duplicate-free, in-range
index list are exactly that many. -/
theorem length_filter_mem_range (n : ℕ) (idx : List ℕ) (hnodup : idx.Nodup)
    (hrange : ∀ i ∈ idx, i < n) :
    ((List.range n).filter fun i => decide (i ∈ idx)).length = idx.length := by
  have hperm :
      List.Perm ((List.range n).filter fun i => decide (i ∈ idx)) idx := by
    apply List.perm_of_nodup_nodup_toFinset_eq
    · exact (List.nodup_range n).filter _
    · exact hnodup
    · ext i
      simp only [List.mem_toFinset, List.mem_filter, List.mem_range,
        decide_eq_true_eq]
      exact ⟨fun h => h.2, fun h => ⟨hrange i h, h⟩⟩
  exact hperm.length_eq

/-- The kept positions are the full range minus the deleted ones. -/
theorem keptIndexes_length (n : ℕ) (idx : List ℕ) (hnodup : idx.Nodup)
    (hrange : ∀ i ∈ idx, i < n) :
    (keptIndexes n idx).length = n - idx.length := by
  have hsplit := length_filter_split (fun i => decide (i ∈ idx)) (List.range n)
  have hmem := length_filter_mem_range n idx hnodup hrange
  have hkept : (keptIndexes n idx).length =
      ((List.range n).filter fun i => !(decide (i ∈ idx))).length := by
    have hfun : (fun i => decide (¬ i ∈ idx)) =
        fun i => !(decide (i ∈ idx)) := by
      funext i
      exact decide_not
    rw [keptIndexes, hfun]
  rw [hkept]
  rw [hmem] at hsplit
  have := List.length_range n
  omega

/-- C9: given the contract of `np.random.choice(n, k, replace=False)` (the
draw has `k = ceil(n·0.1)` distinct in-range indices), the split of
`generate_euroc_imu_dataset` puts exactly `ceil(n·0.1)` rows in the test set
and the remaining `n - ceil(n·0.1)` rows in the training set; the drawn and
kept index lists are disjoint, every index below `n` lies in one of them,
and the training rows are exactly the rows at the kept positions in order. -/
theorem euroc_test_train_split_partition (xs : List (List (List ℚ)))
    (testIdx : List ℕ)
    (hlen : testIdx.length = testDsLen xs.length)
    (hnodup : testIdx.Nodup)
    (hrange : ∀ i ∈ testIdx, i < xs.length) :
    (eurocTestTrainSplit testIdx xs).1.length = testDsLen xs.length ∧
    (eurocTestTrainSplit testIdx xs).2.length =
      xs.length - testDsLen xs.length ∧
    List.Disjoint testIdx (keptIndexes xs.length testIdx) ∧
    (∀ i, i < xs.length →
      i ∈ testIdx ∨ i ∈ keptIndexes xs.length testIdx) ∧
    (eurocTestTrainSplit testIdx xs).2 =
      (keptIndexes xs.length testIdx).map fun i => xs.getD i [] := by
  refine ⟨by simp [eurocTestTrainSplit, hlen], ?_, ?_, ?_, ?_⟩
  · have h := npDelete_eq xs testIdx
    have hk := keptIndexes_length xs.length testIdx hnodup hrange
    simp [eurocTestTrainSplit, h, hk, hlen]
  · intro i hi hkept
    have := List.of_mem_filter hkept
    simp at this
    exact this hi
  · intro i hi
    by_cases hmem : i ∈ testIdx
    · exact Or.inl hmem
    · exact Or.inr (List.mem_filter.mpr ⟨List.mem_range.mpr hi, by simp [hmem]⟩)
  · exact npDelete_eq xs testIdx

/-- Witness for C9 at a 3-window set with drawn index list `[1]`. -/
theorem euroc_test_train_split_partition_witness :
    ([1].length = testDsLen [[rawRow 1], [rawRow 2], [rawRow 3]].length) ∧
    ([1] : List ℕ).Nodup ∧
    (∀ i ∈ [1], i < [[rawRow 1], [rawRow 2], [rawRow 3]].length) ∧
    ((eurocTestTrainSplit [1] [[rawRow 1], [rawRow 2], [rawRow 3]]).1.length =
        testDsLen [[rawRow 1], [rawRow 2], [rawRow 3]].length ∧
      (eurocTestTrainSplit [1] [[rawRow 1], [rawRow 2], [rawRow 3]]).2.length =
        [[rawRow 1], [rawRow 2], [rawRow 3]].length -
          testDsLen [[rawRow 1], [rawRow 2], [rawRow 3]].length ∧
      List.Disjoint [1]
        (keptIndexes [[rawRow 1], [rawRow 2], [rawRow 3]].length [1]) ∧
      (∀ i, i < [[rawRow 1], [rawRow 2], [rawRow 3]].length →
        i ∈ [1] ∨
          i ∈ keptIndexes [[rawRow 1], [rawRow 2], [rawRow 3]].length [1]) ∧
      (eurocTestTrainSplit [1] [[rawRow 1], [rawRow 2], [rawRow 3]]).2 =
        (keptIndexes [[rawRow 1], [rawRow 2], [rawRow 3]].length [1]).map
          fun i => [[rawRow 1], [rawRow 2], [rawRow 3]].getD i []) := by
  have hlen : ([1].length = testDsLen [[rawRow 1], [rawRow 2], [rawRow 3]].length) := by
    show 1 = testDsLen 3
    symm
    rw [testDsLen, Nat.ceil_eq_iff (by norm_num)]
    norm_num
  exact ⟨hlen, by decide, by decide,
    euroc_test_train_split_partition [[rawRow 1], [rawRow 2], [rawRow 3]] [1]
      hlen (by decide) (by decide)⟩

/-- C5 fails as stated: two runs of the train/validation split of
`generate_cnn_training_dataset` on identical inputs (and with the same
hard-coded internal constant `seed = 8901`, which only feeds the tf shuffle)
produce different partitions, because the draw comes from the ambient global
numpy RNG state, which no parameter of the function fixes: ambient streams
starting with 0 and with 1 select different validation rows. -/
theorem cnn_split_depends_on_ambient_rng :
    generateCnnTrainingSplit [0] [[1], [2]] [1, 2] ≠
      generateCnnTrainingSplit [1] [[1], [2]] [1, 2] := by
  have h2 : testDsLen 2 = 1 := by
    rw [testDsLen, Nat.ceil_eq_iff (by norm_num)]
    norm_num
  have hL : generateCnnTrainingSplit [0] [[1], [2]] [1, 2] =
      (([[2]], [2]), ([[1]], [1])) := by
    rw [generateCnnTrainingSplit]
    norm_num [npRandomChoice, h2, npDelete, npDeleteFrom, List.dedup_cons_of_not_mem]
  have hR : generateCnnTrainingSplit [1] [[1], [2]] [1, 2] =
      (([[1]], [1]), ([[2]], [2])) := by
    rw [generateCnnTrainingSplit]
    norm_num [npRandomChoice, h2, npDelete, npDeleteFrom, List.dedup_cons_of_not_mem]
  rw [hL, hR]
  intro h
  have := congrArg (fun p => p.2.2) h
  simp at this

/-- C5 (amended): the split of `generate_cnn_training_dataset` has no seed
parameter; it is deterministic only relative to the ambient numpy RNG state:
whenever two ambient states produce the same `np.random.choice` draw, the
resulting partitions coincide. -/
theorem cnn_split_deterministic_given_rng_draw (a b : List ℕ)
    (xs : List (List ℚ)) (ys : List ℚ)
    (h : npRandomChoice a ys.length (testDsLen ys.length) =
      npRandomChoice b ys.length (testDsLen ys.length)) :
    generateCnnTrainingSplit a xs ys = generateCnnTrainingSplit b xs ys := by
  rw [generateCnnTrainingSplit, generateCnnTrainingSplit, h]

/-- Witness for C5 (amended) at identical ambient streams. -/
theorem cnn_split_deterministic_given_rng_draw_witness :
    (npRandomChoice [0] ([(1 : ℚ), 2]).length (testDsLen ([(1 : ℚ), 2]).length) =
      npRandomChoice [0] ([(1 : ℚ), 2]).length
        (testDsLen ([(1 : ℚ), 2]).length)) ∧
    generateCnnTrainingSplit [0] [[1], [2]] [1, 2] =
      generateCnnTrainingSplit [0] [[1], [2]] [1, 2] :=
  ⟨rfl, cnn_split_deterministic_given_rng_draw [0] [0] [[1], [2]] [1, 2] rfl⟩

/-- C7: the design step fails with a `ConfigError` exactly when the
normalized cutoff lies outside `(0, 1)` or the order is ≤ 0; at the
repository's call sites (order fixed at 10, `w0 = f0 / (fs / 2)`) this means
it fails exactly when the cutoff frequency is not strictly between 0 and
half the sampling frequency. -/
theorem butter_design_config_error_iff (order : ℤ) (w0 fs f0 : ℚ)
    (hfs : 0 < fs) :
    ((∃ e, butterDesign order w0 = Except.error e) ↔
      (¬ (0 < w0 ∧ w0 < 1) ∨ order ≤ 0)) ∧
    ((∃ e, designInPreprocessing fs f0 = Except.error e) ↔
      ¬ (0 < f0 ∧ f0 < fs / 2)) := by
  have hgen : ∀ (o : ℤ) (w : ℚ),
      (∃ e, butterDesign o w = Except.error e) ↔
        (¬ (0 < w ∧ w < 1) ∨ o ≤ 0) := by
    intro o w
    rw [butterDesign]
    split_ifs with hord hcut
    · simp [hord]
    · have hr : ¬ (0 < w ∧ w < 1) := by
        rcases hcut with h | h
        · exact fun hc => absurd hc.1 (not_lt.mpr h)
        · exact fun hc => absurd hc.2 (not_lt.mpr h)
      simp [hr]
    · push_neg at hcut
      simp [hord, hcut.1, hcut.2]
  have hhalf : 0 < fs / 2 := by positivity
  refine ⟨hgen order w0, ?_⟩
  rw [designInPreprocessing, hgen 10 (f0 / (fs / 2))]
  constructor
  · rintro (h | h)
    · intro hc
      exact h ⟨div_pos hc.1 hhalf, (div_lt_one hhalf).mpr hc.2⟩
    · exact absurd h (by norm_num)
  · intro h
    left
    intro hc
    apply h
    constructor
    · have := mul_pos hc.1 hhalf
      rwa [div_mul_cancel₀ _ (ne_of_gt hhalf)] at this
    · exact (div_lt_one hhalf).mp hc.2

/-- Witness for C7 at order 10, `fs = 200` Hz, `f0 = 10` Hz (the
repository's constants), so `w0 = 1/10`. -/
theorem butter_design_config_error_iff_witness :
    ((0 : ℚ) < 200) ∧
    (((∃ e, butterDesign 10 (1 / 10) = Except.error e) ↔
        (¬ ((0 : ℚ) < 1 / 10 ∧ (1 : ℚ) / 10 < 1) ∨ (10 : ℤ) ≤ 0)) ∧
      ((∃ e, designInPreprocessing 200 10 = Except.error e) ↔
        ¬ ((0 : ℚ) < 10 ∧ (10 : ℚ) < 200 / 2))) :=
  ⟨by norm_num, butter_design_config_error_iff 10 (1 / 10) 200 10 (by norm_num)⟩

/-- The squared quaternion norm is nonnegative. -/
theorem qnormSq_nonneg (q : Quat) : 0 ≤ qnormSq q := by
  rw [qnormSq]
  positivity

/-- A quaternion with zero squared norm is the zero quaternion. -/
theorem qnormSq_eq_zero {q : Quat} (h : qnormSq q = 0) : q = qzero := by
  obtain ⟨w, x, y, z⟩ := q
  simp only [qnormSq] at h
  have hw : w = 0 := pow_eq_zero_iff (two_ne_zero) |>.mp
    (by nlinarith [sq_nonneg w, sq_nonneg x, sq_nonneg y, sq_nonneg z])
  have hx : x = 0 := pow_eq_zero_iff (two_ne_zero) |>.mp
    (by nlinarith [sq_nonneg w, sq_nonneg x, sq_nonneg y, sq_nonneg z])
  have hy : y = 0 := pow_eq_zero_iff (two_ne_zero) |>.mp
    (by nlinarith [sq_nonneg w, sq_nonneg x, sq_nonneg y, sq_nonneg z])
  have hz : z = 0 := pow_eq_zero_iff (two_ne_zero) |>.mp
    (by nlinarith [sq_nonneg w, sq_nonneg x, sq_nonneg y, sq_nonneg z])
  simp [qzero, hw, hx, hy, hz]

/-- The squared norm of a scalar multiple. -/
theorem qnormSq_qsmul (c : ℝ) (q : Quat) :
    qnormSq (qsmul c q) = c ^ 2 * qnormSq q := by
  simp only [qnormSq, qsmul]
  ring

/-- C4: for every pair of bracketing unit quaternions and every
interpolation position, as long as the spherical shorter-arc combination is
nonzero, the renormalized interpolated orientation has unit norm. -/
theorem interpolated_quaternion_unit_norm (q0 q1 : Quat) (t : ℝ)
    (h0 : qnormSq q0 = 1) (h1 : qnormSq q1 = 1)
    (hnz : slerpCombo q0 q1 t ≠ qzero) :
    qnormSq (interpolateQuat q0 q1 t) = 1 := by
  have hq : qnormSq (slerpCombo q0 q1 t) ≠ 0 := fun hzero =>
    hnz (qnormSq_eq_zero hzero)
  have hpos : 0 < qnormSq (slerpCombo q0 q1 t) :=
    lt_of_le_of_ne (qnormSq_nonneg _) (Ne.symm hq)
  rw [interpolateQuat, qnormalize, qnormSq_qsmul, inv_pow,
    Real.sq_sqrt hpos.le]
  exact inv_mul_cancel₀ hq

/-- Witness for C4 at the orthogonal unit pair `qex0`, `qex1` and midpoint
`t = 1/2`: the combination is `(√2/2, √2/2, 0, 0)`, nonzero, and the
interpolated orientation has unit norm. -/
theorem interpolated_quaternion_unit_norm_witness :
    qnormSq qex0 = 1 ∧ qnormSq qex1 = 1 ∧
    slerpCombo qex0 qex1 (1 / 2) ≠ qzero ∧
    qnormSq (interpolateQuat qex0 qex1 (1 / 2)) = 1 := by
  have h0 : qnormSq qex0 = 1 := by norm_num [qnormSq, qex0]
  have h1 : qnormSq qex1 = 1 := by norm_num [qnormSq, qex1]
  have hdot : quatDot qex0 qex1 = 0 := by norm_num [quatDot, qex0, qex1]
  have harc : slerpShorterArc qex0 qex1 = qex1 := by
    rw [slerpShorterArc, hdot]
    simp
  have hcombo : slerpCombo qex0 qex1 (1 / 2) =
      ⟨Real.sqrt 2 / 2, Real.sqrt 2 / 2, 0, 0⟩ := by
    simp only [slerpCombo, harc, hdot, Real.arccos_zero]
    have e1 : (1 - 1 / 2 : ℝ) * (Real.pi / 2) = Real.pi / 4 := by ring
    have e2 : (1 / 2 : ℝ) * (Real.pi / 2) = Real.pi / 4 := by ring
    rw [e1, e2, Real.sin_pi_div_two, Real.sin_pi_div_four]
    norm_num [qadd, qsmul, qex0, qex1]
  have hnz : slerpCombo qex0 qex1 (1 / 2) ≠ qzero := by
    rw [hcombo]
    intro hc
    have hsqrt : (0 : ℝ) < Real.sqrt 2 := Real.sqrt_pos.mpr (by norm_num)
    have hw := congrArg Quat.w hc
    simp only [qzero] at hw
    linarith
  exact ⟨h0, h1, hnz,
    interpolated_quaternion_unit_norm qex0 qex1 (1 / 2) h0 h1 hnz⟩

end EurocPipeline
